import Mathlib

/-!
Shallow embedding of `src/train.py` (stereo_regression): split planning,
decoder-configuration construction, the epoch loop of `main` with its
checkpointing policy, and the `finally` shutdown sequence.

Losses and ratios are modelled as rationals; the background session is
modelled as an oracle giving each pull's outcome (a loss, or a raised
exception's message).
-/

namespace StereoRegression

/-- Banker's rounding (round half to even), the behavior of Python 3's
built-in `round` used at `train.py` lines 61-64. -/
def pyRound (q : ℚ) : ℤ :=
  if q - ⌊q⌋ < 1/2 then ⌊q⌋
  else if q - ⌊q⌋ > 1/2 then ⌊q⌋ + 1
  else if ⌊q⌋ % 2 = 0 then ⌊q⌋ else ⌊q⌋ + 1

/-- `SplitSizes = namedtuple('SplitSizes', 'train train_valid valid test')`
(`train.py` line 14). Fields are integers, as produced by `int(round(...))`. -/
structure SplitSizes where
  train : ℤ
  train_valid : ℤ
  valid : ℤ
  test : ℤ
  deriving DecidableEq, Repr

/-- One per-split step count: `int(round(FLAGS.examples * ratio / FLAGS.batch_size))`
(`train.py` lines 61-64). -/
def splitSteps (examples batch_size : ℕ) (ratio : ℚ) : ℤ :=
  pyRound (examples * ratio / batch_size)

/-- The four step counts computed in `main` (`train.py` lines 61-65). -/
def computeSplitSizes (examples batch_size : ℕ) (rt rtv rv rs : ℚ) : SplitSizes :=
  ⟨splitSteps examples batch_size rt, splitSteps examples batch_size rtv,
   splitSteps examples batch_size rv, splitSteps examples batch_size rs⟩

/-- `InputShape(width, height, channels, max_disp, aux)` (`train.py` lines 43-44). -/
structure InputShape where
  width : ℕ
  height : ℕ
  channels : ℕ
  max_disp : ℕ
  aux : ℕ
  deriving DecidableEq, Repr

/-- `DecodeConfig = namedtuple('DecodeConfig', 'name flags is_training size shapes queues')`
(`train.py` line 13); the `flags` and `queues` fields are external collaborators
and are not part of the model. -/
structure DecodeConfig where
  name : String
  is_training : Bool
  size : ℤ
  shapes : InputShape
  deriving DecidableEq, Repr

/-- `get_decoder_configurations` (`train.py` lines 42-54): the train config is
always constructed; the train_valid / valid / test configs only when their
step count is positive. -/
def get_decoder_configurations (width height max_disp : ℕ) (split_sizes : SplitSizes) :
    List DecodeConfig :=
  let shapes : InputShape := ⟨width, height, 3, max_disp, 256⟩
  let shapes_l : InputShape := ⟨900, 300, 3, max_disp, 256⟩
  [DecodeConfig.mk "train" true split_sizes.train shapes]
    ++ (if split_sizes.train_valid > 0 then
          [DecodeConfig.mk "train_valid" false split_sizes.train_valid shapes_l] else [])
    ++ (if split_sizes.valid > 0 then
          [DecodeConfig.mk "valid" false split_sizes.valid shapes_l] else [])
    ++ (if split_sizes.test > 0 then
          [DecodeConfig.mk "test" false split_sizes.test shapes_l] else [])

/-- The names for which a placeholder (batch handle) is bound
(`train.py` lines 70-75: one dict entry per decoder configuration). -/
def placeholderNames (width height max_disp : ℕ) (split_sizes : SplitSizes) : List String :=
  (get_decoder_configurations width height max_disp split_sizes).map DecodeConfig.name

/-- The splits an evaluation (or training) graph is built for
(`train.py` lines 78-83): train unconditionally, each other split iff its
step count is positive. -/
def builtSplits (split_sizes : SplitSizes) : List String :=
  ["train"]
    ++ (if split_sizes.train_valid > 0 then ["train_valid"] else [])
    ++ (if split_sizes.valid > 0 then ["valid"] else [])
    ++ (if split_sizes.test > 0 then ["test"] else [])

/-- Decimal rendering of a positive number, most significant digit first,
with explicit fuel so the kernel can evaluate it. -/
def toDecimalAux : ℕ → ℕ → List Char
  | 0, _ => []
  | _ + 1, 0 => []
  | fuel + 1, n + 1 =>
    toDecimalAux fuel ((n + 1) / 10) ++ [Nat.digitChar ((n + 1) % 10)]

/-- Decimal rendering of a natural number, modelling Python's
`'\x7b\x7d'.format(epoch)` applied to a non-negative integer. -/
def formatNat (n : ℕ) : String :=
  if n = 0 then "0" else ⟨toDecimalAux n n⟩

/-- The per-epoch checkpoint path `os.path.join(checkpoints, '\x7b\x7d.cpkt'.format(epoch))`
(`train.py` line 131), relative to the run directory. -/
def epochCheckpointPath (epoch : ℕ) : String :=
  "checkpoints/" ++ formatNat epoch ++ ".cpkt"

/-- The forced final checkpoint path `os.path.join(checkpoints, 'final.cpkt')`
(`train.py` line 139), relative to the run directory. -/
def finalCheckpointPath : String :=
  "checkpoints/final.cpkt"

/-- The four dataset splits. -/
inductive SplitTag
  | train
  | train_valid
  | valid
  | test
  deriving DecidableEq, Repr

/-- Observable actions of `main`'s epoch loop and shutdown sequence. -/
inductive Event
  /-- `session.run([train_step, loss])` plus `print("train: ...")` (`train.py` lines 114-115):
  one optimization step against the train handle, yielding a loss. -/
  | trainStep (epoch : ℕ) (loss : ℚ)
  /-- `session.run(loss)` plus `print("valid: ...")` (`train.py` lines 118-119). -/
  | validLoss (epoch : ℕ) (loss : ℚ)
  /-- `session.run(loss)` plus `print("train_valid: ...")` (`train.py` lines 124-125). -/
  | trainValidLoss (epoch : ℕ) (loss : ℚ)
  /-- `saver.save(session, path)` (`train.py` lines 131 and 140). -/
  | save (path : String)
  /-- The `except ZeroDivisionError: pass` branch taken (`train.py` lines 132-133). -/
  | zeroDivisionCaught
  /-- `print(e)` in the outer `except Exception` (`train.py` lines 135-136). -/
  | printError (msg : String)
  /-- `print("Model saved to ...")` (`train.py` line 141). -/
  | printSaved (path : String)
  /-- `coord.request_stop()` (`train.py` line 142). -/
  | requestStop
  /-- `coord.join(threads)` (`train.py` line 143). -/
  | joinThreads
  deriving DecidableEq, Repr

/-- The session as seen by the loop: each pull (epoch, split, index within the
split's pulls for that epoch) either yields a loss or raises an exception with
a message. -/
abbrev Oracle := ℕ → SplitTag → ℕ → Except String ℚ

/-- Run `n` consecutive pulls (indices `i, i+1, ...`) against one split's
handle, turning each yielded loss into an event with `mk` and collecting the
losses in order; stops at the first raised exception, keeping the events
already produced. -/
def pullLoop (oracle : Oracle) (epoch : ℕ) (tag : SplitTag) (mk : ℚ → Event) :
    ℕ → ℕ → Except (List Event × String) (List Event × List ℚ)
  | 0, _ => .ok ([], [])
  | n + 1, i =>
    match oracle epoch tag i with
    | .error msg => .error ([], msg)
    | .ok loss =>
      match pullLoop oracle epoch tag mk n (i + 1) with
      | .error (evs, msg) => .error (mk loss :: evs, msg)
      | .ok (evs, losses) => .ok (mk loss :: evs, loss :: losses)

/-- The body of one epoch (`train.py` lines 112-133): train pulls (each an
optimization step), then valid pulls, then — when `split_sizes.train_valid > 0`
— the train_valid pulls, whose losses are averaged into the early-stopping
score; at epoch 0 `best` is assigned, and a checkpoint is saved when the score
is ≤ `best`.  `best` is `none` while the Python local `best` is unbound; using
it unbound raises a NameError, and an empty collected-loss list raises a
ZeroDivisionError that is caught and ignored. -/
def runEpoch (oracle : Oracle) (split_sizes : SplitSizes) (epoch : ℕ) (best : Option ℚ) :
    Except (List Event × String) (List Event × Option ℚ) :=
  match pullLoop oracle epoch .train (Event.trainStep epoch) split_sizes.train.toNat 0 with
  | .error r => .error r
  | .ok (ev1, _) =>
    match pullLoop oracle epoch .valid (Event.validLoss epoch) split_sizes.valid.toNat 0 with
    | .error (evs, msg) => .error (ev1 ++ evs, msg)
    | .ok (ev2, _) =>
      if 0 < split_sizes.train_valid then
        match pullLoop oracle epoch .train_valid (Event.trainValidLoss epoch)
            split_sizes.train_valid.toNat 0 with
        | .error (evs, msg) => .error (ev1 ++ ev2 ++ evs, msg)
        | .ok (ev3, losses) =>
          if losses.length = 0 then
            .ok (ev1 ++ ev2 ++ ev3 ++ [Event.zeroDivisionCaught], best)
          else
            let current := losses.sum / (losses.length : ℚ)
            let best1 := if epoch = 0 then some current else best
            match best1 with
            | none => .error (ev1 ++ ev2 ++ ev3, "NameError: best is not defined")
            | some b =>
              if current ≤ b then
                .ok (ev1 ++ ev2 ++ ev3 ++ [Event.save (epochCheckpointPath epoch)], best1)
              else
                .ok (ev1 ++ ev2 ++ ev3, best1)
      else
        .ok (ev1 ++ ev2, best)

/-- Outcome of the `for epoch in range(FLAGS.epochs)` loop: the events
produced, the final value of the Python local `best`, and the message of the
exception caught by the surrounding `except Exception` block, if any. -/
structure RunResult where
  events : List Event
  best : Option ℚ
  caught : Option String
  deriving DecidableEq, Repr

/-- The epoch loop (`train.py` line 111) run for `n` more epochs starting at
`epoch`: stops at the first epoch that raises, recording the caught message. -/
def runEpochs (oracle : Oracle) (split_sizes : SplitSizes) :
    ℕ → ℕ → Option ℚ → RunResult
  | 0, _, best => ⟨[], best, none⟩
  | n + 1, epoch, best =>
    match runEpoch oracle split_sizes epoch best with
    | .error (evs, msg) => ⟨evs, best, some msg⟩
    | .ok (evs, best1) =>
      let rest := runEpochs oracle split_sizes n (epoch + 1) best1
      ⟨evs ++ rest.events, rest.best, rest.caught⟩

/-- The `finally` block (`train.py` lines 137-143): save the final checkpoint,
announce the path, signal the queue-runner coordinator, join the threads. -/
def shutdownEvents : List Event :=
  [Event.save finalCheckpointPath, Event.printSaved finalCheckpointPath,
   Event.requestStop, Event.joinThreads]

/-- The whole `try / except Exception as e / finally` of `main`
(`train.py` lines 110-143): the epoch loop, then — only when an exception was
caught — `print(e)`, then unconditionally the shutdown sequence. -/
def mainRun (oracle : Oracle) (epochs : ℕ) (split_sizes : SplitSizes) : RunResult :=
  let r := runEpochs oracle split_sizes epochs 0 none
  ⟨r.events
     ++ (match r.caught with | none => [] | some msg => [Event.printError msg])
     ++ shutdownEvents,
   r.best, r.caught⟩

/-- Which split a trace event is a pull against, if any. -/
def pullEventTag : Event → Option SplitTag
  | .trainStep _ _ => some .train
  | .validLoss _ _ => some .valid
  | .trainValidLoss _ _ => some .train_valid
  | _ => none

/-- Whether a trace event is a checkpoint write. -/
def isSave : Event → Bool
  | .save _ => true
  | _ => false

/-- The train_valid losses collected during epoch `e` when every pull succeeds
with losses given by `f`. -/
def tvLosses (f : ℕ → SplitTag → ℕ → ℚ) (split_sizes : SplitSizes) (e : ℕ) : List ℚ :=
  (List.range split_sizes.train_valid.toNat).map (f e SplitTag.train_valid)

/-- The early-stopping score of epoch `e` (mean of the collected train_valid
losses) when every pull succeeds with losses given by `f`. -/
def tvScore (f : ℕ → SplitTag → ℕ → ℚ) (split_sizes : SplitSizes) (e : ℕ) : ℚ :=
  (tvLosses f split_sizes e).sum / ((tvLosses f split_sizes e).length : ℚ)

/-- The events of one successful epoch `e` when every pull succeeds with losses
given by `f` and the comparison baseline for the early-stopping score is `b`. -/
def successEpochEvents (f : ℕ → SplitTag → ℕ → ℚ) (split_sizes : SplitSizes) (b : ℚ)
    (e : ℕ) : List Event :=
  (List.range split_sizes.train.toNat).map (fun i => Event.trainStep e (f e SplitTag.train i))
    ++ (List.range split_sizes.valid.toNat).map (fun i => Event.validLoss e (f e SplitTag.valid i))
    ++ (List.range split_sizes.train_valid.toNat).map
        (fun i => Event.trainValidLoss e (f e SplitTag.train_valid i))
    ++ (if tvScore f split_sizes e ≤ b then [Event.save (epochCheckpointPath e)] else [])

/-- The events of a run of `n` successful epochs: every epoch is compared
against the epoch-0 score. -/
def successRunEvents (f : ℕ → SplitTag → ℕ → ℚ) (split_sizes : SplitSizes) (n : ℕ) :
    List Event :=
  (List.range n).flatMap (successEpochEvents f split_sizes (tvScore f split_sizes 0))

/-- The events produced by one epoch, whether it completed or raised. -/
def epochEvents (r : Except (List Event × String) (List Event × Option ℚ)) : List Event :=
  match r with
  | .error (evs, _) => evs
  | .ok (evs, _) => evs

/-- Modelled from the spec's words (CheckpointPolicy, §4.4): the running best
score after epoch `e`, where the best is "updated to score" whenever the epoch
score is ≤ the previous best.  Used only to compare the spec's claimed policy
with the one the code implements. -/
def specBest (score : ℕ → ℚ) : ℕ → ℚ
  | 0 => score 0
  | e + 1 => if score (e + 1) ≤ specBest score e then score (e + 1) else specBest score e

/-! ### Concrete runs used to exercise the theorems -/

/-- A concrete per-epoch score sequence: 1, 1/2, 3/4. -/
def wScore : ℕ → ℚ := fun e => if e = 0 then 1 else if e = 1 then 1/2 else 3/4

/-- Concrete per-pull losses: every pull of epoch `e` yields `wScore e`. -/
def wF : ℕ → SplitTag → ℕ → ℚ := fun e _ _ => wScore e

/-- A session in which every pull succeeds with the losses of `wF`. -/
def wOracle : Oracle := fun e tag i => .ok (wF e tag i)

/-- A session in which the very first pull raises. -/
def failOracle : Oracle := fun _ _ _ => .error "boom"

/-- Step counts 1/1/1/0. -/
def wSizes : SplitSizes := ⟨1, 1, 1, 0⟩

/-- Step counts with only the train_valid split pulled. -/
def cexSizes : SplitSizes := ⟨0, 1, 0, 0⟩

/-- Step counts with one train step and no other split. -/
def failSizes : SplitSizes := ⟨1, 0, 0, 0⟩

/-- Step counts with the train_valid split inactive. -/
def c8Sizes : SplitSizes := ⟨1, 0, 1, 0⟩

/-! ### Checkpoint paths: decimal rendering is injective and never `final` -/

theorem toDecimalAux_eq (fuel : ℕ) : ∀ n : ℕ, n ≤ fuel →
    toDecimalAux fuel n = (Nat.digits 10 n).reverse.map Nat.digitChar := by
  induction fuel with
  | zero =>
    intro n h
    interval_cases n
    simp [toDecimalAux]
  | succ fuel ih =>
    intro n h
    match n with
    | 0 => simp [toDecimalAux]
    | m + 1 =>
      rw [toDecimalAux, ih _ (by omega),
        Nat.digits_def' (by norm_num : (1:ℕ) < 10) (Nat.succ_pos m)]
      simp

theorem formatNat_of_ne_zero {n : ℕ} (h : n ≠ 0) :
    formatNat n = ⟨(Nat.digits 10 n).reverse.map Nat.digitChar⟩ := by
  rw [formatNat, if_neg h, toDecimalAux_eq n n le_rfl]

theorem digitChar_inj_aux :
    ∀ a < 10, ∀ b < 10, Nat.digitChar a = Nat.digitChar b → a = b := by decide

theorem digitChar_mem_aux :
    ∀ a < 10, Nat.digitChar a ∈ ['0','1','2','3','4','5','6','7','8','9'] := by decide

theorem map_digitChar_inj : ∀ l1 l2 : List ℕ, (∀ x ∈ l1, x < 10) → (∀ x ∈ l2, x < 10) →
    l1.map Nat.digitChar = l2.map Nat.digitChar → l1 = l2
  | [], [], _, _, _ => rfl
  | [], _ :: _, _, _, h => by simp at h
  | _ :: _, [], _, _, h => by simp at h
  | a :: l1, b :: l2, h1, h2, h => by
    simp only [List.map_cons, List.cons.injEq] at h
    have ha := h1 a (List.mem_cons_self a l1)
    have hb := h2 b (List.mem_cons_self b l2)
    have : a = b := digitChar_inj_aux a ha b hb h.1
    subst this
    have := map_digitChar_inj l1 l2 (fun x hx => h1 x (List.mem_cons_of_mem _ hx))
      (fun x hx => h2 x (List.mem_cons_of_mem _ hx)) h.2
    rw [this]

theorem formatNat_injective : Function.Injective formatNat := by
  intro m n h
  by_cases hm : m = 0 <;> by_cases hn : n = 0
  · omega
  · rw [hm, formatNat, if_pos rfl, formatNat_of_ne_zero hn] at h
    have hd : ['0'] = (Nat.digits 10 n).reverse.map Nat.digitChar := congrArg String.data h
    have : [0] = (Nat.digits 10 n).reverse := by
      refine map_digitChar_inj [0] _ (by simp) ?_ ?_
      · intro x hx
        exact Nat.digits_lt_base (by norm_num) (List.mem_reverse.mp hx)
      · simpa using hd
    have hrev : Nat.digits 10 n = [0] := by
      have := congrArg List.reverse this
      simpa using this.symm
    have : n = 0 := by
      have := Nat.ofDigits_digits 10 n
      rw [hrev] at this
      simpa using this.symm
    omega
  · rw [formatNat_of_ne_zero hm, hn, formatNat, if_pos rfl] at h
    have hd : (Nat.digits 10 m).reverse.map Nat.digitChar = ['0'] := congrArg String.data h
    have : (Nat.digits 10 m).reverse = [0] := by
      refine map_digitChar_inj _ [0] ?_ (by simp) ?_
      · intro x hx
        exact Nat.digits_lt_base (by norm_num) (List.mem_reverse.mp hx)
      · simpa using hd
    have hrev : Nat.digits 10 m = [0] := by
      have := congrArg List.reverse this
      simpa using this
    have : m = 0 := by
      have := Nat.ofDigits_digits 10 m
      rw [hrev] at this
      simpa using this.symm
    omega
  · rw [formatNat_of_ne_zero hm, formatNat_of_ne_zero hn] at h
    have hd : (Nat.digits 10 m).reverse.map Nat.digitChar
        = (Nat.digits 10 n).reverse.map Nat.digitChar := congrArg String.data h
    have : (Nat.digits 10 m).reverse = (Nat.digits 10 n).reverse := by
      refine map_digitChar_inj _ _ ?_ ?_ hd <;> intro x hx <;>
        exact Nat.digits_lt_base (by norm_num) (List.mem_reverse.mp hx)
    have : Nat.digits 10 m = Nat.digits 10 n := by
      have := congrArg List.reverse this
      simpa using this
    exact Nat.digits_inj_iff.mp this

theorem formatNat_chars_are_digits {n : ℕ} :
    ∀ c ∈ (formatNat n).data, c ∈ ['0','1','2','3','4','5','6','7','8','9'] := by
  by_cases hn : n = 0
  · rw [hn]
    intro c hc
    simp only [formatNat, if_pos rfl] at hc
    have : c = '0' := by simpa using hc
    simp [this]
  · rw [formatNat_of_ne_zero hn]
    intro c hc
    simp only [List.mem_map, List.mem_reverse] at hc
    obtain ⟨d, hd, rfl⟩ := hc
    exact digitChar_mem_aux d (Nat.digits_lt_base (by norm_num) hd)

theorem formatNat_ne_final (n : ℕ) : formatNat n ≠ "final" := by
  intro h
  have hf : 'f' ∈ (formatNat n).data := by
    rw [h]
    decide
  have := formatNat_chars_are_digits 'f' hf
  simp at this

theorem epochCheckpointPath_injective : Function.Injective epochCheckpointPath := by
  intro m n h
  have hd : "checkpoints/".data ++ ((formatNat m).data ++ ".cpkt".data)
      = "checkpoints/".data ++ ((formatNat n).data ++ ".cpkt".data) := by
    have := congrArg String.data h
    simpa [epochCheckpointPath, String.data_append, List.append_assoc] using this
  have := List.append_cancel_right (List.append_cancel_left hd)
  exact formatNat_injective (String.ext this)

theorem epochCheckpointPath_ne_final (n : ℕ) :
    epochCheckpointPath n ≠ finalCheckpointPath := by
  intro h
  have hfin : finalCheckpointPath = "checkpoints/" ++ "final" ++ ".cpkt" := by decide
  rw [hfin] at h
  have hd : "checkpoints/".data ++ ((formatNat n).data ++ ".cpkt".data)
      = "checkpoints/".data ++ ("final".data ++ ".cpkt".data) := by
    have := congrArg String.data h
    simpa [epochCheckpointPath, String.data_append, List.append_assoc] using this
  have := List.append_cancel_right (List.append_cancel_left hd)
  exact formatNat_ne_final n (String.ext this)

/-! ### pullLoop lemmas -/

theorem pullLoop_ok {oracle : Oracle} {epoch : ℕ} {tag : SplitTag} {f : ℕ → ℚ}
    (hf : ∀ k, oracle epoch tag k = .ok (f k)) (mk : ℚ → Event) :
    ∀ n i, pullLoop oracle epoch tag mk n i =
      .ok ((List.range n).map (fun j => mk (f (i + j))),
           (List.range n).map (fun j => f (i + j))) := by
  intro n
  induction n with
  | zero => intro i; simp [pullLoop]
  | succ n ih =>
    intro i
    rw [pullLoop, hf i, ih (i + 1)]
    simp only [List.range_succ_eq_map, List.map_cons, List.map_map, Nat.add_zero]
    refine congrArg Except.ok (Prod.ext ?_ ?_) <;> simp only [List.cons.injEq, true_and] <;>
      refine List.map_congr_left fun a _ => ?_ <;> simp [Function.comp] <;> ring_nf

theorem pullLoop_ok_length {oracle : Oracle} {epoch : ℕ} {tag : SplitTag} {mk : ℚ → Event} :
    ∀ {n i : ℕ} {evs : List Event} {losses : List ℚ},
      pullLoop oracle epoch tag mk n i = .ok (evs, losses) → losses.length = n := by
  intro n
  induction n with
  | zero =>
    intro i evs losses h
    rw [pullLoop] at h
    injection h with h
    rw [← (Prod.mk.injEq _ _ _ _).mp h |>.2]
    rfl
  | succ n ih =>
    intro i evs losses h
    rw [pullLoop] at h
    cases horacle : oracle epoch tag i with
    | error msg => rw [horacle] at h; exact absurd h (by simp)
    | ok l =>
      rw [horacle] at h
      cases hrec : pullLoop oracle epoch tag mk n (i + 1) with
      | error r => rw [hrec] at h; exact absurd h (by cases r; simp)
      | ok r =>
        cases r with
        | mk evs' losses' =>
          rw [hrec] at h
          injection h with h
          have h2 := (Prod.mk.injEq _ _ _ _).mp h
          rw [← h2.2]
          simp [ih hrec]

theorem pullLoop_error_oracle {oracle : Oracle} {epoch : ℕ} {tag : SplitTag} {mk : ℚ → Event} :
    ∀ {n i : ℕ} {evs : List Event} {msg : String},
      pullLoop oracle epoch tag mk n i = .error (evs, msg) →
        ∃ k, oracle epoch tag k = .error msg := by
  intro n
  induction n with
  | zero =>
    intro i evs msg h
    rw [pullLoop] at h
    exact absurd h (by simp)
  | succ n ih =>
    intro i evs msg h
    rw [pullLoop] at h
    cases horacle : oracle epoch tag i with
    | error msg' =>
      rw [horacle] at h
      injection h with h
      have h2 := (Prod.mk.injEq _ _ _ _).mp h
      exact ⟨i, by rw [horacle, h2.2]⟩
    | ok l =>
      rw [horacle] at h
      cases hrec : pullLoop oracle epoch tag mk n (i + 1) with
      | error r =>
        cases r with
        | mk evs' msg' =>
          rw [hrec] at h
          injection h with h
          have h2 := (Prod.mk.injEq _ _ _ _).mp h
          exact h2.2 ▸ ih hrec
      | ok r => rw [hrec] at h; exact absurd h (by cases r; simp)

theorem pullLoop_events_mem {oracle : Oracle} {epoch : ℕ} {tag : SplitTag} {mk : ℚ → Event} :
    ∀ {n i : ℕ}, ∀ ev ∈ epochEvents (match pullLoop oracle epoch tag mk n i with
      | .error (evs, msg) => Except.error (evs, msg)
      | .ok (evs, _) => Except.ok (evs, (none : Option ℚ))),
      ∃ l, ev = mk l := by
  intro n
  induction n with
  | zero =>
    intro i ev hev
    rw [pullLoop] at hev
    simp [epochEvents] at hev
  | succ n ih =>
    intro i ev hev
    rw [pullLoop] at hev
    cases horacle : oracle epoch tag i with
    | error msg =>
      rw [horacle] at hev
      simp [epochEvents] at hev
    | ok l =>
      rw [horacle] at hev
      cases hrec : pullLoop oracle epoch tag mk n (i + 1) with
      | error r =>
        cases r with
        | mk evs' msg' =>
          rw [hrec] at hev
          simp only [epochEvents, List.mem_cons] at hev
          rcases hev with rfl | hev
          · exact ⟨l, rfl⟩
          · exact ih (i := i + 1) ev (by rw [hrec]; simpa [epochEvents] using hev)
      | ok r =>
        cases r with
        | mk evs' losses' =>
          rw [hrec] at hev
          simp only [epochEvents, List.mem_cons] at hev
          rcases hev with rfl | hev
          · exact ⟨l, rfl⟩
          · exact ih (i := i + 1) ev (by rw [hrec]; simpa [epochEvents] using hev)

/-! ### runEpoch lemmas -/

theorem pullLoop_ok_events_mem {oracle : Oracle} {epoch : ℕ} {tag : SplitTag} {mk : ℚ → Event}
    {n i : ℕ} {evs : List Event} {losses : List ℚ}
    (h : pullLoop oracle epoch tag mk n i = .ok (evs, losses)) :
    ∀ ev ∈ evs, ∃ l, ev = mk l := by
  intro ev hev
  refine @pullLoop_events_mem oracle epoch tag mk n i ev ?_
  rw [h]
  simpa [epochEvents] using hev

theorem pullLoop_error_events_mem {oracle : Oracle} {epoch : ℕ} {tag : SplitTag} {mk : ℚ → Event}
    {n i : ℕ} {evs : List Event} {msg : String}
    (h : pullLoop oracle epoch tag mk n i = .error (evs, msg)) :
    ∀ ev ∈ evs, ∃ l, ev = mk l := by
  intro ev hev
  refine @pullLoop_events_mem oracle epoch tag mk n i ev ?_
  rw [h]
  simpa [epochEvents] using hev

theorem runEpoch_events_classify {oracle : Oracle} {s : SplitSizes} {e : ℕ} {best : Option ℚ} :
    ∀ ev ∈ epochEvents (runEpoch oracle s e best),
      (∃ l, ev = Event.trainStep e l) ∨
      (s.valid.toNat ≠ 0 ∧ ∃ l, ev = Event.validLoss e l) ∨
      (0 < s.train_valid ∧
        ((∃ l, ev = Event.trainValidLoss e l) ∨ ev = Event.save (epochCheckpointPath e))) := by
  intro ev hev
  unfold runEpoch at hev
  split at hev
  · rename_i r heq1
    obtain ⟨evs, msg⟩ := r
    simp only [epochEvents] at hev
    exact Or.inl (pullLoop_error_events_mem heq1 ev hev)
  · rename_i ev1 l1 heq1
    have htrain := pullLoop_ok_events_mem heq1
    split at hev
    · rename_i evs msg heq2
      have hvne : s.valid.toNat ≠ 0 := by
        intro h0
        rw [h0] at heq2
        simp [pullLoop] at heq2
      simp only [epochEvents, List.mem_append] at hev
      rcases hev with hev | hev
      · exact Or.inl (htrain ev hev)
      · exact Or.inr (Or.inl ⟨hvne, pullLoop_error_events_mem heq2 ev hev⟩)
    · rename_i ev2 l2 heq2
      have hvalid : ∀ ev ∈ ev2, s.valid.toNat ≠ 0 ∧ ∃ l, ev = Event.validLoss e l := by
        intro ev hev
        refine ⟨?_, pullLoop_ok_events_mem heq2 ev hev⟩
        intro h0
        rw [h0, pullLoop] at heq2
        injection heq2 with heq2
        rw [← (Prod.mk.injEq _ _ _ _).mp heq2 |>.1] at hev
        exact absurd hev (List.not_mem_nil ev)
      split at hev
      · rename_i htv
        split at hev
        · rename_i evs msg heq3
          simp only [epochEvents, List.mem_append] at hev
          rcases hev with (hev | hev) | hev
          · exact Or.inl (htrain ev hev)
          · exact Or.inr (Or.inl (hvalid ev hev))
          · exact Or.inr (Or.inr ⟨htv, Or.inl (pullLoop_error_events_mem heq3 ev hev)⟩)
        · rename_i ev3 losses heq3
          have htvmem := pullLoop_ok_events_mem heq3
          split at hev
          · rename_i hlen0
            exfalso
            have := pullLoop_ok_length heq3
            omega
          · rename_i hlen0
            split at hev
            · rename_i he0
              simp only [epochEvents, le_refl, if_true, List.mem_append,
                List.mem_singleton] at hev
              rcases hev with ((hev | hev) | hev) | hev
              · exact Or.inl (htrain ev hev)
              · exact Or.inr (Or.inl (hvalid ev hev))
              · exact Or.inr (Or.inr ⟨htv, Or.inl (htvmem ev hev)⟩)
              · exact Or.inr (Or.inr ⟨htv, Or.inr hev⟩)
            · rename_i he0
              cases best with
              | none =>
                simp only [epochEvents, List.mem_append] at hev
                rcases hev with (hev | hev) | hev
                · exact Or.inl (htrain ev hev)
                · exact Or.inr (Or.inl (hvalid ev hev))
                · exact Or.inr (Or.inr ⟨htv, Or.inl (htvmem ev hev)⟩)
              | some b =>
                dsimp only at hev
                split at hev
                · simp only [epochEvents, List.mem_append, List.mem_singleton] at hev
                  rcases hev with ((hev | hev) | hev) | hev
                  · exact Or.inl (htrain ev hev)
                  · exact Or.inr (Or.inl (hvalid ev hev))
                  · exact Or.inr (Or.inr ⟨htv, Or.inl (htvmem ev hev)⟩)
                  · exact Or.inr (Or.inr ⟨htv, Or.inr hev⟩)
                · simp only [epochEvents, List.mem_append] at hev
                  rcases hev with (hev | hev) | hev
                  · exact Or.inl (htrain ev hev)
                  · exact Or.inr (Or.inl (hvalid ev hev))
                  · exact Or.inr (Or.inr ⟨htv, Or.inl (htvmem ev hev)⟩)
      · simp only [epochEvents, List.mem_append] at hev
        rcases hev with hev | hev
        · exact Or.inl (htrain ev hev)
        · exact Or.inr (Or.inl (hvalid ev hev))

theorem runEpoch_ok_best_of_tv_nonpos {oracle : Oracle} {s : SplitSizes} {e : ℕ}
    {best b1 : Option ℚ} {evs : List Event} (htv : ¬ 0 < s.train_valid)
    (h : runEpoch oracle s e best = .ok (evs, b1)) : b1 = best := by
  unfold runEpoch at h
  split at h
  · exact absurd h (by simp)
  · split at h
    · exact absurd h (by simp at h)
    · rw [if_neg htv] at h
      simp only [Except.ok.injEq, Prod.mk.injEq] at h
      exact h.2.symm

theorem runEpoch_ok_best_of_pos_epoch {oracle : Oracle} {s : SplitSizes} {e : ℕ}
    {best b1 : Option ℚ} {evs : List Event} (he : e ≠ 0)
    (h : runEpoch oracle s e best = .ok (evs, b1)) : b1 = best := by
  unfold runEpoch at h
  split at h
  · exact absurd h (by simp)
  · split at h
    · exact absurd h (by simp at h)
    · split at h
      · split at h
        · exact absurd h (by simp at h)
        · split at h
          · simp only [Except.ok.injEq, Prod.mk.injEq] at h
            exact h.2.symm
          · dsimp only at h
            cases best with
            | none => exact absurd h (by simp at h)
            | some b =>
              dsimp only at h
              split at h <;>
                simp only [Except.ok.injEq, Prod.mk.injEq] at h <;>
                exact h.2.symm
      · simp only [Except.ok.injEq, Prod.mk.injEq] at h
        exact h.2.symm

theorem runEpoch_ok_best_of_zero_epoch {oracle : Oracle} {s : SplitSizes}
    {best b1 : Option ℚ} {evs : List Event} (htv : 0 < s.train_valid)
    (h : runEpoch oracle s 0 best = .ok (evs, b1)) : ∃ c, b1 = some c := by
  unfold runEpoch at h
  split at h
  · exact absurd h (by simp)
  · split at h
    · exact absurd h (by simp at h)
    · rw [if_pos htv] at h
      split at h
      · exact absurd h (by simp at h)
      · rename_i ev3 losses heq3
        split at h
        · rename_i hlen0
          exfalso
          have := pullLoop_ok_length heq3
          omega
        · dsimp only at h
          split at h
          · exact absurd h (by simp)
          · simp only [if_true] at h
            split at h <;> simp only [Except.ok.injEq, Prod.mk.injEq] at h <;>
              exact ⟨_, h.2.symm⟩

theorem runEpoch_error_oracle {oracle : Oracle} {s : SplitSizes} {e : ℕ}
    {best : Option ℚ} {evs : List Event} {msg : String}
    (hinv : e = 0 ∨ best ≠ none ∨ ¬ 0 < s.train_valid)
    (h : runEpoch oracle s e best = .error (evs, msg)) :
    ∃ tag i, oracle e tag i = .error msg := by
  unfold runEpoch at h
  split at h
  · rename_i r heq1
    obtain ⟨evs', msg'⟩ := r
    injection h with h
    obtain ⟨h1, h2⟩ := (Prod.mk.injEq _ _ _ _).mp h
    subst h2
    exact ⟨_, pullLoop_error_oracle heq1⟩
  · split at h
    · rename_i heq2
      injection h with h
      obtain ⟨h1, h2⟩ := (Prod.mk.injEq _ _ _ _).mp h
      subst h2
      exact ⟨_, pullLoop_error_oracle heq2⟩
    · split at h
      · rename_i htv
        split at h
        · rename_i heq3
          injection h with h
          obtain ⟨h1, h2⟩ := (Prod.mk.injEq _ _ _ _).mp h
          subst h2
          exact ⟨_, pullLoop_error_oracle heq3⟩
        · rename_i ev3 losses heq3
          split at h
          · exact absurd h (by simp)
          · split at h
            · exact absurd h (by simp)
            · rename_i he0
              cases hbest : best with
              | none =>
                exfalso
                rcases hinv with h0 | hb | hb
                · exact he0 h0
                · exact hb hbest
                · exact hb htv
              | some b =>
                rw [hbest] at h
                dsimp only at h
                split at h <;> exact absurd h (by simp)
      · exact absurd h (by simp)

/-! ### runEpochs lemmas -/

theorem runEpochs_events_mem {oracle : Oracle} {s : SplitSizes} :
    ∀ {n e : ℕ} {best : Option ℚ}, ∀ ev ∈ (runEpochs oracle s n e best).events,
      ∃ e' b', ev ∈ epochEvents (runEpoch oracle s e' b') := by
  intro n
  induction n with
  | zero =>
    intro e best ev hev
    simp [runEpochs] at hev
  | succ n ih =>
    intro e best ev hev
    rw [runEpochs] at hev
    cases heq : runEpoch oracle s e best with
    | error r =>
      obtain ⟨evs, msg⟩ := r
      rw [heq] at hev
      exact ⟨e, best, by rw [heq]; simpa [epochEvents] using hev⟩
    | ok r =>
      obtain ⟨evs, best1⟩ := r
      rw [heq] at hev
      simp only [List.mem_append] at hev
      rcases hev with hev | hev
      · exact ⟨e, best, by rw [heq]; simpa [epochEvents] using hev⟩
      · exact ih ev hev

theorem runEpochs_best_of_tv_nonpos {oracle : Oracle} {s : SplitSizes}
    (htv : ¬ 0 < s.train_valid) :
    ∀ {n e : ℕ} {best : Option ℚ}, (runEpochs oracle s n e best).best = best := by
  intro n
  induction n with
  | zero => intro e best; simp [runEpochs]
  | succ n ih =>
    intro e best
    rw [runEpochs]
    cases heq : runEpoch oracle s e best with
    | error r => obtain ⟨evs, msg⟩ := r; rfl
    | ok r =>
      obtain ⟨evs, best1⟩ := r
      have hb := runEpoch_ok_best_of_tv_nonpos htv heq
      subst hb
      simpa using ih

theorem runEpochs_caught_oracle {oracle : Oracle} {s : SplitSizes} :
    ∀ {n e : ℕ} {best : Option ℚ} {msg : String},
      (e = 0 ∨ best ≠ none ∨ ¬ 0 < s.train_valid) →
      (runEpochs oracle s n e best).caught = some msg →
      ∃ e' tag i, oracle e' tag i = .error msg := by
  intro n
  induction n with
  | zero => intro e best msg _ h; simp [runEpochs] at h
  | succ n ih =>
    intro e best msg hinv h
    rw [runEpochs] at h
    cases heq : runEpoch oracle s e best with
    | error r =>
      obtain ⟨evs, msg'⟩ := r
      rw [heq] at h
      simp only [Option.some.injEq] at h
      subst h
      exact ⟨e, runEpoch_error_oracle hinv heq⟩
    | ok r =>
      obtain ⟨evs, best1⟩ := r
      rw [heq] at h
      refine ih ?_ h
      by_cases htv : 0 < s.train_valid
      · rcases hinv with he0 | hb | hb
        · subst he0
          obtain ⟨c, hc⟩ := runEpoch_ok_best_of_zero_epoch htv heq
          exact Or.inr (Or.inl (by simp [hc]))
        · by_cases he0 : e = 0
          · subst he0
            obtain ⟨c, hc⟩ := runEpoch_ok_best_of_zero_epoch htv heq
            exact Or.inr (Or.inl (by simp [hc]))
          · have := runEpoch_ok_best_of_pos_epoch he0 heq
            subst this
            exact Or.inr (Or.inl hb)
        · exact absurd htv hb
      · exact Or.inr (Or.inr htv)

/-! ### Characterization of runs in which every pull succeeds -/

theorem runEpoch_success_zero {oracle : Oracle} {s : SplitSizes} {f : ℕ → SplitTag → ℕ → ℚ}
    {best : Option ℚ} (hf : ∀ tag i, oracle 0 tag i = .ok (f 0 tag i))
    (htv : 0 < s.train_valid) :
    runEpoch oracle s 0 best =
      .ok (successEpochEvents f s (tvScore f s 0) 0, some (tvScore f s 0)) := by
  simp only [runEpoch,
    pullLoop_ok (fun k => hf SplitTag.train k) (Event.trainStep 0) s.train.toNat 0,
    pullLoop_ok (fun k => hf SplitTag.valid k) (Event.validLoss 0) s.valid.toNat 0,
    pullLoop_ok (fun k => hf SplitTag.train_valid k) (Event.trainValidLoss 0)
      s.train_valid.toNat 0]
  rw [if_pos htv]
  have hlen : ¬ ((List.range s.train_valid.toNat).map
      (fun j => f 0 SplitTag.train_valid (0 + j))).length = 0 := by
    simp only [List.length_map, List.length_range]
    omega
  rw [if_neg hlen]
  simp [successEpochEvents, tvScore, tvLosses]

theorem runEpoch_success_pos {oracle : Oracle} {s : SplitSizes} {f : ℕ → SplitTag → ℕ → ℚ}
    {e : ℕ} {b : ℚ} (hf : ∀ tag i, oracle e tag i = .ok (f e tag i))
    (htv : 0 < s.train_valid) (he : e ≠ 0) :
    runEpoch oracle s e (some b) = .ok (successEpochEvents f s b e, some b) := by
  simp only [runEpoch,
    pullLoop_ok (fun k => hf SplitTag.train k) (Event.trainStep e) s.train.toNat 0,
    pullLoop_ok (fun k => hf SplitTag.valid k) (Event.validLoss e) s.valid.toNat 0,
    pullLoop_ok (fun k => hf SplitTag.train_valid k) (Event.trainValidLoss e)
      s.train_valid.toNat 0]
  rw [if_pos htv]
  have hlen : ¬ ((List.range s.train_valid.toNat).map
      (fun j => f e SplitTag.train_valid (0 + j))).length = 0 := by
    simp only [List.length_map, List.length_range]
    omega
  rw [if_neg hlen]
  rw [if_neg he]
  simp only [successEpochEvents, tvScore, tvLosses, List.length_map, List.length_range,
    Nat.zero_add, List.append_assoc]
  rcases le_or_lt ((List.map (f e SplitTag.train_valid)
      (List.range s.train_valid.toNat)).sum / (s.train_valid.toNat : ℚ)) b with hle | hlt
  · rw [if_pos hle, if_pos hle]
  · rw [if_neg (not_le.mpr hlt), if_neg (not_le.mpr hlt)]
    simp

theorem runEpochs_success_pos {oracle : Oracle} {s : SplitSizes} {f : ℕ → SplitTag → ℕ → ℚ}
    (hf : ∀ e tag i, oracle e tag i = .ok (f e tag i)) (htv : 0 < s.train_valid) (b : ℚ) :
    ∀ (n e : ℕ), e ≠ 0 → runEpochs oracle s n e (some b) =
      ⟨(List.range n).flatMap (fun k => successEpochEvents f s b (e + k)), some b, none⟩ := by
  intro n
  induction n with
  | zero => intro e he; simp [runEpochs]
  | succ n ih =>
    intro e he
    rw [runEpochs.eq_def]
    simp only [runEpoch_success_pos (fun tag i => hf e tag i) htv he]
    rw [ih (e + 1) (by omega)]
    simp only [List.range_succ_eq_map, List.flatMap_cons, List.flatMap_map, Nat.add_zero,
      Function.comp]
    congr 1
    exact congrArg (fun t => successEpochEvents f s b e ++ t)
      (congrArg (fun g => (List.range n).flatMap g)
        (funext fun k => congrArg (successEpochEvents f s b)
          (show e + 1 + k = e + k.succ by omega)))

theorem runEpochs_success {oracle : Oracle} {s : SplitSizes} {f : ℕ → SplitTag → ℕ → ℚ}
    (hf : ∀ e tag i, oracle e tag i = .ok (f e tag i)) (htv : 0 < s.train_valid)
    (n : ℕ) (hn : 0 < n) :
    runEpochs oracle s n 0 none =
      ⟨successRunEvents f s n, some (tvScore f s 0), none⟩ := by
  obtain ⟨m, rfl⟩ : ∃ m, n = m + 1 := ⟨n - 1, by omega⟩
  rw [runEpochs.eq_def]
  simp only [runEpoch_success_zero (fun tag i => hf 0 tag i) htv]
  rw [runEpochs_success_pos hf htv (tvScore f s 0) m 1 (by omega)]
  simp only [successRunEvents, List.range_succ_eq_map, List.flatMap_cons, List.flatMap_map,
    Function.comp]
  congr 1
  exact congrArg (fun t => successEpochEvents f s (tvScore f s 0) 0 ++ t)
    (congrArg (fun g => (List.range m).flatMap g)
      (funext fun k => congrArg (successEpochEvents f s (tvScore f s 0))
        (show 1 + k = k.succ by omega)))

theorem save_mem_successEpochEvents {f : ℕ → SplitTag → ℕ → ℚ} {s : SplitSizes} {b : ℚ}
    {e : ℕ} {p : String} :
    Event.save p ∈ successEpochEvents f s b e ↔
      p = epochCheckpointPath e ∧ tvScore f s e ≤ b := by
  unfold successEpochEvents
  split
  · rename_i hle
    simp [hle]
  · rename_i hle
    simp [hle]

theorem save_mem_successRunEvents {f : ℕ → SplitTag → ℕ → ℚ} {s : SplitSizes} {n e : ℕ} :
    Event.save (epochCheckpointPath e) ∈ successRunEvents f s n ↔
      e < n ∧ tvScore f s e ≤ tvScore f s 0 := by
  simp only [successRunEvents, List.mem_flatMap, List.mem_range, save_mem_successEpochEvents]
  constructor
  · rintro ⟨k, hk, hpk, hsk⟩
    obtain rfl := epochCheckpointPath_injective hpk
    exact ⟨hk, hsk⟩
  · rintro ⟨hen, hse⟩
    exact ⟨e, hen, rfl, hse⟩

theorem save_epoch_not_mem_shutdownEvents (e : ℕ) :
    Event.save (epochCheckpointPath e) ∉ shutdownEvents := by
  intro h
  simp only [shutdownEvents, List.mem_cons, List.not_mem_nil, or_false] at h
  rcases h with h | h | h | h <;> exact epochCheckpointPath_ne_final e (by injection h)

/-! ### Claim theorems -/

theorem pyRound_nonneg {q : ℚ} (h : 0 ≤ q) : 0 ≤ pyRound q := by
  unfold pyRound
  have h0 : (0:ℤ) ≤ ⌊q⌋ := Int.floor_nonneg.mpr h
  split <;> [skip; split] <;> [omega; omega; skip]
  split <;> omega

/-- Claim C3: for every example count `E`, batch size `B` and ratios, the four
per-epoch step counts equal `round(E * ratio / B)` (Python's banker's
rounding), each non-negative for non-negative ratios; in particular
`E = 200`, `B = 1`, ratios `(0.8, 0.01, 0.19, 0.0)` yields
`SplitSizes (160, 2, 38, 0)`. -/
theorem split_sizes_round_formula (E B : ℕ) (rt rtv rv rs : ℚ)
    (h1 : 0 ≤ rt) (h2 : 0 ≤ rtv) (h3 : 0 ≤ rv) (h4 : 0 ≤ rs) :
    computeSplitSizes E B rt rtv rv rs =
      SplitSizes.mk (pyRound (E * rt / B)) (pyRound (E * rtv / B))
        (pyRound (E * rv / B)) (pyRound (E * rs / B)) ∧
    0 ≤ (computeSplitSizes E B rt rtv rv rs).train ∧
    0 ≤ (computeSplitSizes E B rt rtv rv rs).train_valid ∧
    0 ≤ (computeSplitSizes E B rt rtv rv rs).valid ∧
    0 ≤ (computeSplitSizes E B rt rtv rv rs).test ∧
    computeSplitSizes 200 1 (8/10) (1/100) (19/100) 0 = SplitSizes.mk 160 2 38 0 := by
  refine ⟨rfl, ?_, ?_, ?_, ?_, ?_⟩
  · exact pyRound_nonneg (div_nonneg (mul_nonneg (Nat.cast_nonneg E) h1) (Nat.cast_nonneg B))
  · exact pyRound_nonneg (div_nonneg (mul_nonneg (Nat.cast_nonneg E) h2) (Nat.cast_nonneg B))
  · exact pyRound_nonneg (div_nonneg (mul_nonneg (Nat.cast_nonneg E) h3) (Nat.cast_nonneg B))
  · exact pyRound_nonneg (div_nonneg (mul_nonneg (Nat.cast_nonneg E) h4) (Nat.cast_nonneg B))
  · norm_num [computeSplitSizes, splitSteps, pyRound]

/-- Witness for C3 at `E = 200`, `B = 1`, the default ratios. -/
theorem split_sizes_round_formula_witness :
    0 ≤ (8/10 : ℚ) ∧ 0 ≤ (1/100 : ℚ) ∧ 0 ≤ (19/100 : ℚ) ∧ 0 ≤ (0 : ℚ) ∧
    computeSplitSizes 200 1 (8/10) (1/100) (19/100) 0 = SplitSizes.mk 160 2 38 0 :=
  ⟨by norm_num, by norm_num, by norm_num, le_refl 0,
    (split_sizes_round_formula 200 1 (8/10) (1/100) (19/100) 0
      (by norm_num) (by norm_num) (by norm_num) (le_refl 0)).2.2.2.2.2⟩

/-- Claim C2: on every exit path of the epoch loop — normal completion or an
exception in any epoch — the run's trace ends with, in order: the final
checkpoint write to `checkpoints/final.cpkt`, the message naming that path,
the stop signal to the workers, and the join on all workers. -/
theorem shutdown_sequence_on_every_exit (oracle : Oracle) (epochs : ℕ) (s : SplitSizes) :
    ∃ p, (mainRun oracle epochs s).events =
      p ++ [Event.save finalCheckpointPath, Event.printSaved finalCheckpointPath,
        Event.requestStop, Event.joinThreads] := by
  refine ⟨(runEpochs oracle s epochs 0 none).events ++
    (match (runEpochs oracle s epochs 0 none).caught with
      | none => [] | some msg => [Event.printError msg]), ?_⟩
  simp [mainRun, shutdownEvents, List.append_assoc]

/-- Claim C9: whenever the early-stopping mean is computed the collected loss
list has exactly `train_valid` steps > 0 elements, so the
`except ZeroDivisionError` branch is never taken, in any run. -/
theorem zero_division_handler_unreachable (oracle : Oracle) (s : SplitSizes) (n : ℕ) :
    Event.zeroDivisionCaught ∉ (mainRun oracle n s).events := by
  intro hmem
  simp only [mainRun, List.mem_append] at hmem
  rcases hmem with (hmem | hmem) | hmem
  · obtain ⟨e', b', hm⟩ := runEpochs_events_mem _ hmem
    rcases runEpoch_events_classify _ hm with ⟨l, h⟩ | ⟨_, l, h⟩ | ⟨_, ⟨l, h⟩ | h⟩ <;>
      simp at h
  · cases hcap : (runEpochs oracle s n 0 none).caught with
    | none => rw [hcap] at hmem; simp at hmem
    | some m => rw [hcap] at hmem; simp at hmem
  · simp [shutdownEvents] at hmem

/-- Claim C4: every exception raised during an epoch's steps aborts the epoch
loop, its message is printed, and it is swallowed — the run proceeds to the
identical shutdown sequence whether or not an error was caught — and every
caught message is the message of an exception actually raised by a pull. -/
theorem epoch_errors_logged_swallowed_uniform_shutdown (oracle : Oracle) (s : SplitSizes)
    (n : ℕ) :
    (∀ msg, (runEpochs oracle s n 0 none).caught = some msg →
      (mainRun oracle n s).events =
        (runEpochs oracle s n 0 none).events ++ Event.printError msg :: shutdownEvents ∧
      ∃ e tag i, oracle e tag i = Except.error msg) ∧
    ((runEpochs oracle s n 0 none).caught = none →
      (mainRun oracle n s).events = (runEpochs oracle s n 0 none).events ++ shutdownEvents) := by
  constructor
  · intro msg hc
    constructor
    · simp [mainRun, hc]
    · exact runEpochs_caught_oracle (Or.inl rfl) hc
  · intro hc
    simp [mainRun, hc]

/-- Witness for C4: a run whose first pull raises `"boom"`. -/
theorem epoch_errors_logged_swallowed_uniform_shutdown_witness :
    (mainRun failOracle 1 failSizes).events =
      (runEpochs failOracle failSizes 1 0 none).events ++
        Event.printError "boom" :: shutdownEvents :=
  ((epoch_errors_logged_swallowed_uniform_shutdown failOracle failSizes 1).1 "boom" rfl).1

/-- Claim C8: with `train_valid` at 0 steps, the only checkpoint ever written is
the forced `final.cpkt` (exactly one write), no epoch-numbered checkpoint
exists, and the running best is never created. -/
theorem tv_zero_only_final_checkpoint (oracle : Oracle) (n : ℕ) (s : SplitSizes)
    (htv : s.train_valid = 0) :
    (mainRun oracle n s).events.countP isSave = 1 ∧
    (∀ e, Event.save (epochCheckpointPath e) ∉ (mainRun oracle n s).events) ∧
    (mainRun oracle n s).best = none := by
  have htv' : ¬ 0 < s.train_valid := by omega
  have hloop : ∀ ev ∈ (runEpochs oracle s n 0 none).events, isSave ev = false := by
    intro ev hev
    obtain ⟨e', b', hm⟩ := runEpochs_events_mem _ hev
    rcases runEpoch_events_classify _ hm with ⟨l, rfl⟩ | ⟨_, l, rfl⟩ | ⟨htv2, _⟩
    · rfl
    · rfl
    · exact absurd htv2 htv'
  refine ⟨?_, ?_, ?_⟩
  · simp only [mainRun, List.countP_append]
    have c1 : (runEpochs oracle s n 0 none).events.countP isSave = 0 :=
      List.countP_eq_zero.mpr (by intro a ha; simp [hloop a ha])
    have c2 : (match (runEpochs oracle s n 0 none).caught with
        | none => ([] : List Event)
        | some msg => [Event.printError msg]).countP isSave = 0 := by
      cases (runEpochs oracle s n 0 none).caught <;> rfl
    rw [c1, c2]
    rfl
  · intro e hev
    simp only [mainRun, List.mem_append] at hev
    rcases hev with (hev | hev) | hev
    · have := hloop _ hev
      simp [isSave] at this
    · cases hcap : (runEpochs oracle s n 0 none).caught with
      | none => rw [hcap] at hev; simp at hev
      | some m => rw [hcap] at hev; simp at hev
    · exact save_epoch_not_mem_shutdownEvents e hev
  · simp only [mainRun]
    exact runEpochs_best_of_tv_nonpos htv'

/-- Witness for C8: two all-success epochs with `train_valid = 0` steps. -/
theorem tv_zero_only_final_checkpoint_witness :
    (mainRun wOracle 2 c8Sizes).events.countP isSave = 1 ∧
    Event.save (epochCheckpointPath 0) ∉ (mainRun wOracle 2 c8Sizes).events ∧
    (mainRun wOracle 2 c8Sizes).best = none :=
  ⟨(tv_zero_only_final_checkpoint wOracle 2 c8Sizes rfl).1,
   (tv_zero_only_final_checkpoint wOracle 2 c8Sizes rfl).2.1 0,
   (tv_zero_only_final_checkpoint wOracle 2 c8Sizes rfl).2.2⟩

theorem countP_tag_zero {oracle : Oracle} {s : SplitSizes} {n : ℕ} {tag : SplitTag}
    (h : ∀ ev ∈ (runEpochs oracle s n 0 none).events, ¬ pullEventTag ev = some tag) :
    ((mainRun oracle n s).events.countP (fun ev => pullEventTag ev == some tag)) = 0 := by
  simp only [mainRun, List.countP_append]
  have c1 : (runEpochs oracle s n 0 none).events.countP
      (fun ev => pullEventTag ev == some tag) = 0 :=
    List.countP_eq_zero.mpr (by intro a ha; simpa using h a ha)
  have c2 : (match (runEpochs oracle s n 0 none).caught with
      | none => ([] : List Event)
      | some msg => [Event.printError msg]).countP
        (fun ev => pullEventTag ev == some tag) = 0 := by
    cases (runEpochs oracle s n 0 none).caught <;> rfl
  rw [c1, c2]
  rfl

/-- Claim C5: a step count of 0 deactivates the train_valid / valid / test split:
no DecodeConfig and no bound handle (`placeholderNames`), no graph built
(`builtSplits`), and zero pulls against it in any run; the train split's
config and handle always exist, whatever its step count. -/
theorem zero_steps_split_inactive (w h m : ℕ) (s : SplitSizes) :
    ("train" ∈ placeholderNames w h m s ∧ "train" ∈ builtSplits s) ∧
    (s.train_valid = 0 →
      "train_valid" ∉ placeholderNames w h m s ∧ "train_valid" ∉ builtSplits s ∧
      ∀ (oracle : Oracle) (n : ℕ), ((mainRun oracle n s).events.countP
        (fun ev => pullEventTag ev == some SplitTag.train_valid)) = 0) ∧
    (s.valid = 0 →
      "valid" ∉ placeholderNames w h m s ∧ "valid" ∉ builtSplits s ∧
      ∀ (oracle : Oracle) (n : ℕ), ((mainRun oracle n s).events.countP
        (fun ev => pullEventTag ev == some SplitTag.valid)) = 0) ∧
    (s.test = 0 →
      "test" ∉ placeholderNames w h m s ∧ "test" ∉ builtSplits s ∧
      ∀ (oracle : Oracle) (n : ℕ), ((mainRun oracle n s).events.countP
        (fun ev => pullEventTag ev == some SplitTag.test)) = 0) := by
  refine ⟨⟨?_, ?_⟩, fun h0 => ⟨?_, ?_, ?_⟩, fun h0 => ⟨?_, ?_, ?_⟩, fun h0 => ⟨?_, ?_, ?_⟩⟩
  · simp [placeholderNames, get_decoder_configurations]
  · simp [builtSplits]
  · intro hmem
    simp only [placeholderNames, get_decoder_configurations, h0] at hmem
    split_ifs at hmem <;> simp_all
  · intro hmem
    simp only [builtSplits, h0] at hmem
    split_ifs at hmem <;> simp_all
  · intro oracle n
    refine countP_tag_zero ?_
    intro ev hev
    obtain ⟨e', b', hm⟩ := runEpochs_events_mem _ hev
    rcases runEpoch_events_classify _ hm with ⟨l, rfl⟩ | ⟨_, l, rfl⟩ | ⟨htv2, _⟩
    · simp [pullEventTag]
    · simp [pullEventTag]
    · omega
  · intro hmem
    simp only [placeholderNames, get_decoder_configurations, h0] at hmem
    split_ifs at hmem <;> simp_all
  · intro hmem
    simp only [builtSplits, h0] at hmem
    split_ifs at hmem <;> simp_all
  · intro oracle n
    refine countP_tag_zero ?_
    intro ev hev
    obtain ⟨e', b', hm⟩ := runEpochs_events_mem _ hev
    rcases runEpoch_events_classify _ hm with ⟨l, rfl⟩ | ⟨hv, l, rfl⟩ | ⟨_, ⟨l, rfl⟩ | rfl⟩
    · simp [pullEventTag]
    · simp [h0] at hv
    · simp [pullEventTag]
    · simp [pullEventTag]
  · intro hmem
    simp only [placeholderNames, get_decoder_configurations, h0] at hmem
    split_ifs at hmem <;> simp_all
  · intro hmem
    simp only [builtSplits, h0] at hmem
    split_ifs at hmem <;> simp_all
  · intro oracle n
    refine countP_tag_zero ?_
    intro ev hev
    obtain ⟨e', b', hm⟩ := runEpochs_events_mem _ hev
    rcases runEpoch_events_classify _ hm with ⟨l, rfl⟩ | ⟨_, l, rfl⟩ | ⟨_, ⟨l, rfl⟩ | rfl⟩ <;>
      simp [pullEventTag]

/-- Witness for C5 at Scenario A sizes (160, 2, 38, 0): test inactive. -/
theorem zero_steps_split_inactive_witness :
    ("train" ∈ placeholderNames 512 256 192 (SplitSizes.mk 160 2 38 0) ∧
      "train" ∈ builtSplits (SplitSizes.mk 160 2 38 0)) ∧
    "test" ∉ placeholderNames 512 256 192 (SplitSizes.mk 160 2 38 0) ∧
    "test" ∉ builtSplits (SplitSizes.mk 160 2 38 0) ∧
    ((mainRun wOracle 1 (SplitSizes.mk 160 2 38 0)).events.countP
      (fun ev => pullEventTag ev == some SplitTag.test)) = 0 :=
  ⟨(zero_steps_split_inactive 512 256 192 (SplitSizes.mk 160 2 38 0)).1,
   ((zero_steps_split_inactive 512 256 192 (SplitSizes.mk 160 2 38 0)).2.2.2 rfl).1,
   ((zero_steps_split_inactive 512 256 192 (SplitSizes.mk 160 2 38 0)).2.2.2 rfl).2.1,
   ((zero_steps_split_inactive 512 256 192 (SplitSizes.mk 160 2 38 0)).2.2.2 rfl).2.2 wOracle 1⟩

/-- Claim C6: at epoch 0 any early-stopping score is unconditionally treated as
the current best and the epoch-0 checkpoint is persisted; checkpoint paths are
namespaced by epoch number, so different epochs write distinct artifacts. -/
theorem epoch0_always_best_distinct_paths {oracle : Oracle} {s : SplitSizes}
    {f : ℕ → SplitTag → ℕ → ℚ} {n : ℕ}
    (hf : ∀ e tag i, oracle e tag i = .ok (f e tag i))
    (htv : 0 < s.train_valid) (hn : 0 < n) :
    Event.save (epochCheckpointPath 0) ∈ (mainRun oracle n s).events ∧
    (mainRun oracle n s).best = some (tvScore f s 0) ∧
    ∀ e e', e ≠ e' → epochCheckpointPath e ≠ epochCheckpointPath e' := by
  have hr := runEpochs_success hf htv n hn
  refine ⟨?_, ?_, ?_⟩
  · simp only [mainRun, hr, List.mem_append]
    left; left
    exact save_mem_successRunEvents.mpr ⟨hn, le_rfl⟩
  · simp only [mainRun, hr]
  · intro e e' hne heq
    exact hne (epochCheckpointPath_injective heq)

/-- Witness for C6: two all-success epochs with scores 1, 1/2. -/
theorem epoch0_always_best_distinct_paths_witness :
    Event.save (epochCheckpointPath 0) ∈ (mainRun wOracle 2 wSizes).events ∧
    (mainRun wOracle 2 wSizes).best = some (tvScore wF wSizes 0) ∧
    epochCheckpointPath 1 ≠ epochCheckpointPath 2 := by
  have h := @epoch0_always_best_distinct_paths wOracle wSizes wF 2
    (fun e tag i => rfl) (by decide) (by decide)
  exact ⟨h.1, h.2.1, h.2.2 1 2 (by decide)⟩

theorem runEpoch_success_nontv {oracle : Oracle} {s : SplitSizes} {f : ℕ → SplitTag → ℕ → ℚ}
    {e : ℕ} {best : Option ℚ} (hf : ∀ tag i, oracle e tag i = .ok (f e tag i))
    (htv : ¬ 0 < s.train_valid) :
    runEpoch oracle s e best =
      .ok ((List.range s.train.toNat).map (fun i => Event.trainStep e (f e SplitTag.train i))
        ++ (List.range s.valid.toNat).map (fun i => Event.validLoss e (f e SplitTag.valid i)),
        best) := by
  simp only [runEpoch,
    pullLoop_ok (fun k => hf SplitTag.train k) (Event.trainStep e) s.train.toNat 0,
    pullLoop_ok (fun k => hf SplitTag.valid k) (Event.validLoss e) s.valid.toNat 0]
  rw [if_neg htv]
  simp

/-- Claim C7: within every epoch — epoch 0 included — the splits run in the
fixed order train (each pull one optimization step), then valid, then
train_valid: exactly the per-split step counts many pulls each.  When
train_valid has 0 steps the third phase is skipped entirely and the epoch
leaves the best unchanged; when it is active, its losses are collected in
order and reduced to their arithmetic mean, the epoch's early-stopping
score. -/
theorem epoch_order_counts_and_mean {oracle : Oracle} {s : SplitSizes}
    {f : ℕ → SplitTag → ℕ → ℚ}
    (hf : ∀ e tag i, oracle e tag i = .ok (f e tag i)) :
    (¬ 0 < s.train_valid → ∀ (e : ℕ) (best : Option ℚ), runEpoch oracle s e best =
      .ok ((List.range s.train.toNat).map (fun i => Event.trainStep e (f e SplitTag.train i))
        ++ (List.range s.valid.toNat).map (fun i => Event.validLoss e (f e SplitTag.valid i)),
        best)) ∧
    (0 < s.train_valid → ∀ best : Option ℚ, runEpoch oracle s 0 best =
      .ok ((List.range s.train.toNat).map (fun i => Event.trainStep 0 (f 0 SplitTag.train i))
        ++ (List.range s.valid.toNat).map (fun i => Event.validLoss 0 (f 0 SplitTag.valid i))
        ++ (List.range s.train_valid.toNat).map
            (fun i => Event.trainValidLoss 0 (f 0 SplitTag.train_valid i))
        ++ [Event.save (epochCheckpointPath 0)],
        some (tvScore f s 0))) ∧
    (0 < s.train_valid → ∀ (e : ℕ) (b : ℚ), e ≠ 0 → runEpoch oracle s e (some b) =
      .ok ((List.range s.train.toNat).map (fun i => Event.trainStep e (f e SplitTag.train i))
        ++ (List.range s.valid.toNat).map (fun i => Event.validLoss e (f e SplitTag.valid i))
        ++ (List.range s.train_valid.toNat).map
            (fun i => Event.trainValidLoss e (f e SplitTag.train_valid i))
        ++ (if tvScore f s e ≤ b then [Event.save (epochCheckpointPath e)] else []),
        some b)) ∧
    (∀ e, (tvLosses f s e).length = s.train_valid.toNat ∧
      tvScore f s e = (tvLosses f s e).sum / ((tvLosses f s e).length : ℚ)) := by
  refine ⟨?_, ?_, ?_, ?_⟩
  · intro htv e best
    exact runEpoch_success_nontv (fun tag i => hf e tag i) htv
  · intro htv best
    rw [runEpoch_success_zero (fun tag i => hf 0 tag i) htv]
    simp [successEpochEvents]
  · intro htv e b he
    rw [runEpoch_success_pos (fun tag i => hf e tag i) htv he]
    rfl
  · intro e
    exact ⟨by simp [tvLosses], rfl⟩

/-- Witness for C7: an epoch of a train_valid-inactive run, and epochs 0 and 1
of a train_valid-active run. -/
theorem epoch_order_counts_and_mean_witness :
    (runEpoch wOracle c8Sizes 0 none =
      .ok ((List.range c8Sizes.train.toNat).map
            (fun i => Event.trainStep 0 (wF 0 SplitTag.train i))
        ++ (List.range c8Sizes.valid.toNat).map
            (fun i => Event.validLoss 0 (wF 0 SplitTag.valid i)),
        none)) ∧
    (runEpoch wOracle wSizes 0 none =
      .ok ((List.range wSizes.train.toNat).map
            (fun i => Event.trainStep 0 (wF 0 SplitTag.train i))
        ++ (List.range wSizes.valid.toNat).map
            (fun i => Event.validLoss 0 (wF 0 SplitTag.valid i))
        ++ (List.range wSizes.train_valid.toNat).map
            (fun i => Event.trainValidLoss 0 (wF 0 SplitTag.train_valid i))
        ++ [Event.save (epochCheckpointPath 0)],
        some (tvScore wF wSizes 0))) ∧
    (runEpoch wOracle wSizes 1 (some 5) =
      .ok ((List.range wSizes.train.toNat).map
            (fun i => Event.trainStep 1 (wF 1 SplitTag.train i))
        ++ (List.range wSizes.valid.toNat).map
            (fun i => Event.validLoss 1 (wF 1 SplitTag.valid i))
        ++ (List.range wSizes.train_valid.toNat).map
            (fun i => Event.trainValidLoss 1 (wF 1 SplitTag.train_valid i))
        ++ (if tvScore wF wSizes 1 ≤ 5 then [Event.save (epochCheckpointPath 1)] else []),
        some 5)) ∧
    (tvLosses wF wSizes 1).length = wSizes.train_valid.toNat :=
  ⟨(@epoch_order_counts_and_mean wOracle c8Sizes wF (fun e tag i => rfl)).1
      (by decide) 0 none,
   (@epoch_order_counts_and_mean wOracle wSizes wF (fun e tag i => rfl)).2.1
      (by decide) none,
   (@epoch_order_counts_and_mean wOracle wSizes wF (fun e tag i => rfl)).2.2.1
      (by decide) 1 5 (by decide),
   ((@epoch_order_counts_and_mean wOracle wSizes wF (fun e tag i => rfl)).2.2.2 1).1⟩

/-- Claim C10: the running best is assigned only at epoch 0 and never reassigned:
in an all-success run the final best is the epoch-0 score, and for e > 0 the
epoch-e checkpoint is written iff the epoch-e mean train_valid loss is ≤ the
epoch-0 mean, independent of the scores of intervening epochs. -/
theorem best_fixed_at_epoch0_save_iff {oracle : Oracle} {s : SplitSizes}
    {f : ℕ → SplitTag → ℕ → ℚ}
    (hf : ∀ e tag i, oracle e tag i = .ok (f e tag i)) (htv : 0 < s.train_valid)
    (n e : ℕ) (hn : 0 < n) (_he : 0 < e) :
    (mainRun oracle n s).best = some (tvScore f s 0) ∧
    (Event.save (epochCheckpointPath e) ∈ (mainRun oracle n s).events ↔
      e < n ∧ tvScore f s e ≤ tvScore f s 0) := by
  have hr := runEpochs_success hf htv n hn
  refine ⟨by simp only [mainRun, hr], ?_⟩
  simp only [mainRun, hr, List.mem_append]
  constructor
  · rintro ((hmem | hmem) | hmem)
    · exact save_mem_successRunEvents.mp hmem
    · simp at hmem
    · exact absurd hmem (save_epoch_not_mem_shutdownEvents e)
  · intro hcond
    exact Or.inl (Or.inl (save_mem_successRunEvents.mpr hcond))

/-- Witness for C10 at epoch 1 of a 3-epoch all-success run. -/
theorem best_fixed_at_epoch0_save_iff_witness :
    (mainRun wOracle 3 wSizes).best = some (tvScore wF wSizes 0) ∧
    (Event.save (epochCheckpointPath 1) ∈ (mainRun wOracle 3 wSizes).events ↔
      1 < 3 ∧ tvScore wF wSizes 1 ≤ tvScore wF wSizes 0) :=
  best_fixed_at_epoch0_save_iff (fun e tag i => rfl) (by decide) 3 1
    (by decide) (by decide)

/-- Claim C1 as stated is false on the code: with epoch scores 1, 1/2, 3/4 the
claimed policy updates the running best to 1/2 at epoch 1 and therefore must
not persist at epoch 2 (3/4 > 1/2); the code nevertheless writes
`checkpoints/2.cpkt`, because it compares every epoch to the epoch-0 score. -/
theorem checkpoint_best_update_counterexample :
    Event.save (epochCheckpointPath 2) ∈ (mainRun wOracle 3 cexSizes).events ∧
    ¬ tvScore wF cexSizes 2 ≤ specBest (fun e => tvScore wF cexSizes e) 1 := by
  constructor
  · have hr := @runEpochs_success wOracle cexSizes wF
      (fun e tag i => rfl) (by decide) 3 (by decide)
    simp only [mainRun, hr, List.mem_append]
    left; left
    refine save_mem_successRunEvents.mpr ⟨by omega, ?_⟩
    norm_num [tvScore, tvLosses, cexSizes, wF, wScore, List.range_succ, List.range_zero]
  · norm_num [tvScore, tvLosses, cexSizes, wF, wScore, specBest, List.range_succ, List.range_zero]

/-- Claim C1 (amended): for every epoch e > 0 with the train_valid split active,
the epoch-e checkpoint is persisted iff the epoch-e score is ≤ the running
best, where the running best is the epoch-0 score and is never updated
afterwards (it is not set to the persisting epoch's score). -/
theorem checkpoint_saved_iff_le_epoch0_best {oracle : Oracle} {s : SplitSizes}
    {f : ℕ → SplitTag → ℕ → ℚ}
    (hf : ∀ e tag i, oracle e tag i = .ok (f e tag i)) (htv : 0 < s.train_valid)
    (n e : ℕ) (hn : 0 < n) (_he : 0 < e) (hen : e < n) :
    (runEpochs oracle s n 0 none).best = some (tvScore f s 0) ∧
    (Event.save (epochCheckpointPath e) ∈ (mainRun oracle n s).events ↔
      tvScore f s e ≤ tvScore f s 0) := by
  have hr := runEpochs_success hf htv n hn
  refine ⟨by rw [hr], ?_⟩
  simp only [mainRun, hr, List.mem_append]
  constructor
  · rintro ((hmem | hmem) | hmem)
    · exact (save_mem_successRunEvents.mp hmem).2
    · simp at hmem
    · exact absurd hmem (save_epoch_not_mem_shutdownEvents e)
  · intro hcond
    exact Or.inl (Or.inl (save_mem_successRunEvents.mpr ⟨hen, hcond⟩))

/-- Witness for the amended C1 at epoch 2 of a 3-epoch all-success run. -/
theorem checkpoint_saved_iff_le_epoch0_best_witness :
    (runEpochs wOracle wSizes 3 0 none).best = some (tvScore wF wSizes 0) ∧
    (Event.save (epochCheckpointPath 2) ∈ (mainRun wOracle 3 wSizes).events ↔
      tvScore wF wSizes 2 ≤ tvScore wF wSizes 0) :=
  checkpoint_saved_iff_le_epoch0_best (fun e tag i => rfl) (by decide) 3 2
    (by decide) (by decide) (by decide)

end StereoRegression
